import Mathlib

/-!
Shallow embedding of `src/bloomfilter.go` (package `bloomfilter`).

Modelling conventions:
* Go `uint` / `uint64` are modelled as `Nat`; where the source performs an
  operation that can wrap a 64-bit word, the embedding reduces `% 2^64` at
  that operation.  A Go `byte` is a `Nat` below 256.
* A `[]byte` is a `List Nat` of byte values, a `[]bool` is a `List Bool`.
* A runtime panic (index out of range, out-of-bounds slice read) is modelled
  as `none` of an `Option` result.
* The `sync.RWMutex` field has no sequential behaviour and is not modelled;
  all operations are modelled as pure state transformers.
* Every element ever stored in the `hashFuncs` slice is `fnv.New64()` — an
  unseeded 64-bit FNV-1 state — and every use runs `Reset` first, so the
  slice is fully described by its length, kept here as `numHashes`; the
  digest of each probe is the same function `fnv64`.
-/

set_option maxHeartbeats 1000000

namespace bloomfilter

/-- Go struct `BloomFilter` (src/bloomfilter.go lines 11-17): `bitset []bool`,
`size uint`, `hashFuncs []hash.Hash64` (represented by its length
`numHashes`, see the module comment) and `count uint`.  The mutex is not
modelled. -/
structure BloomFilter where
  bitset : List Bool
  size : Nat
  numHashes : Nat
  count : Nat
deriving DecidableEq, Repr

/-- FNV-1 64-bit offset basis: the state of `fnv.New64()` after `Reset()`. -/
def fnvOffsetBasis : Nat := 14695981039346656037

/-- FNV-1 64-bit prime used by Go's `hash/fnv`. -/
def fnvPrime : Nat := 1099511628211

/-- One byte step of `fnv.sum64.Write`: `hash *= prime64; hash ^= sum64(c)`,
on a 64-bit word. -/
def fnvStep (h b : Nat) : Nat := ((h * fnvPrime) % 2^64) ^^^ (b % 256)

/-- Digest computed by `h.Reset(); h.Write(item); h.Sum64()` for an unseeded
`fnv.New64()` state `h` — FNV-1 64-bit of the item. -/
def fnv64 (item : List Nat) : Nat := item.foldl fnvStep fnvOffsetBasis

/-- The bit index `h.Sum64() % uint64(bf.size)` computed inside `Add` and
`Contains`.  It does not depend on which probe `h` is, because all probes are
identical unseeded FNV-1 states.  (Go panics when `size = 0`; every theorem
about a probing operation below is stated in a context in which the claim
assumes `size > 0`, or is vacuous at `size = 0`.) -/
def probeIndex (bf : BloomFilter) (item : List Nat) : Nat := fnv64 item % bf.size

/-- The loop of `Add` (lines 38-43) run `k` times: each iteration computes
`probeIndex` (the same index for every probe) and sets that bit. -/
def addLoop (bf : BloomFilter) (item : List Nat) : Nat → List Bool
  | 0 => bf.bitset
  | k + 1 => (addLoop bf item k).set (probeIndex bf item) true

/-- Go `Add` (lines 34-44): for each of the `len(hashFuncs)` probes, set bit
`probeIndex` of the bitset.  The source never touches `bf.count` here. -/
def Add (bf : BloomFilter) (item : List Nat) : BloomFilter :=
  { bf with bitset := addLoop bf item bf.numHashes }

/-- The loop of `Contains` (lines 50-57) run `k` times: returns `false` on the
first probe whose bit is unset, `true` if all `k` probes pass. -/
def containsLoop (bf : BloomFilter) (item : List Nat) : Nat → Bool
  | 0 => true
  | k + 1 =>
    if bf.bitset.getD (probeIndex bf item) false then containsLoop bf item k else false

/-- Go `Contains` (lines 46-59). -/
def Contains (bf : BloomFilter) (item : List Nat) : Bool :=
  containsLoop bf item bf.numHashes

/-- Go `Count` (lines 61-65). -/
def Count (bf : BloomFilter) : Nat := bf.count

/-- Go `Reset` (lines 82-87): fresh all-false bitset of the same size, count
zeroed. -/
def Reset (bf : BloomFilter) : BloomFilter :=
  { bf with bitset := List.replicate bf.size false, count := 0 }

/-- The filter value built by the struct literal in `New` (lines 20-25):
`size` zeroed bits, `numHashes` probe slots, count 0. -/
def newFilter (size numHashes : Nat) : BloomFilter :=
  { bitset := List.replicate size false, size := size, numHashes := numHashes, count := 0 }

/-- Go `New` (lines 19-32).  After the struct literal, the loop
`for i := 0; i <= numHashes; i++` stores `fnv.New64()` into `bf.hashFuncs[i]`.
`hashFuncs` has exactly `numHashes` slots, so the store is in bounds only for
`i < numHashes`; the loop visits every `i` in `[0, numHashes]` (stores of
identical fnv states carry no other observable effect in this embedding) and
the run panics at the first out-of-range `i`.  `none` models that panic. -/
def New (size numHashes : Nat) : Option BloomFilter :=
  if (List.range (numHashes + 1)).all (fun i => decide (i < numHashes)) then
    some (newFilter size numHashes)
  else none

/-- Go `Union` (lines 89-107): returns `nil` (modelled `none`) at line 91 when
`size` or the number of hash functions differ, before any construction.
Otherwise it calls `New(bf.size, len(bf.hashFuncs))` at line 99 — which always
panics from its init off-by-one, so the panic propagates (`Option.map` of
`none`) and the OR loop and count sum below it are never reached by a run.
They are still embedded faithfully on the value `New` would produce: bit `i`
of the result is the OR of the operands' bits `i` for `i` ranging over
`bf.bitset`, and the count is the sum of the operands' counts (`uint`
addition wraps at `2^64`). -/
def Union (bf other : BloomFilter) : Option BloomFilter :=
  if bf.size ≠ other.size ∨ bf.numHashes ≠ other.numHashes then none
  else
    (New bf.size bf.numHashes).map fun result =>
      { result with
        bitset := (List.range bf.bitset.length).foldl
          (fun acc i => acc.set i (bf.bitset.getD i false || other.bitset.getD i false))
          result.bitset,
        count := (bf.count + other.count) % 2^64 }

/-- The eight little-endian bytes written by `binary.LittleEndian.PutUint64`:
byte `k` is `byte(v >> 8k) = v / 2^(8k) % 256`. -/
def putUint64LE (x : Nat) : List Nat :=
  [x % 256, x / 2^8 % 256, x / 2^16 % 256, x / 2^24 % 256,
   x / 2^32 % 256, x / 2^40 % 256, x / 2^48 % 256, x / 2^56 % 256]

/-- Go `Serialize` (lines 109-124): a buffer of `8 + 8 + size/8 + 1` zero
bytes, `uint64(size)` put little-endian at offset 0 and `uint64(count)` at
offset 8, then for each set bit `i` of the bitset the byte at `16 + i/8` gets
`1 << (i % 8)` or-ed in.  (Both or-operands are below 256, so the byte never
overflows.) -/
def Serialize (bf : BloomFilter) : List Nat :=
  let base := putUint64LE bf.size ++ putUint64LE bf.count ++
    List.replicate (bf.size / 8 + 1) 0
  (List.range bf.bitset.length).foldl
    (fun acc i =>
      if bf.bitset.getD i false then
        acc.set (16 + i / 8) (acc.getD (16 + i / 8) 0 ||| 1 <<< (i % 8))
      else acc)
    base

/-- The value read by `binary.LittleEndian.Uint64(data[off:off+8])`.  Go bytes
are below 256; the `% 256` makes the model total on arbitrary `Nat` lists and
is the identity on byte values. -/
def readUint64LE (data : List Nat) (off : Nat) : Nat :=
  data.getD off 0 % 256 + (data.getD (off + 1) 0 % 256) * 2^8 +
  (data.getD (off + 2) 0 % 256) * 2^16 + (data.getD (off + 3) 0 % 256) * 2^24 +
  (data.getD (off + 4) 0 % 256) * 2^32 + (data.getD (off + 5) 0 % 256) * 2^40 +
  (data.getD (off + 6) 0 % 256) * 2^48 + (data.getD (off + 7) 0 % 256) * 2^56

/-- One iteration of the bit-reading loop of `Deserialize` (lines 133-137) at
index `i`: reading `data[16 + i/8]` panics (modelled `none`, and propagated by
`bind`) when that index is out of range; otherwise bit `i` is set when the
byte has bit `i % 8`. -/
def deserStep (data : List Nat) (acc : Option (List Bool)) (i : Nat) : Option (List Bool) :=
  acc.bind fun bits =>
    if 16 + i / 8 < data.length then
      some (if data.getD (16 + i / 8) 0 &&& 1 <<< (i % 8) ≠ 0 then bits.set i true else bits)
    else none

/-- Go `Deserialize` (lines 126-139): slicing `data[0:8]` / `data[8:16]`
panics (modelled `none`) on fewer than 16 bytes; otherwise `size` and `count`
are read little-endian and the filter is built by `New(uint(size), 1)` at
line 130 — a call that always panics from its init off-by-one, so the panic
propagates (`bind` of `none`) and the bit loop below is never reached by a
run.  The loop is still embedded faithfully over the value `New` would
produce: for `i = 0, …, size-1` it reads byte `16 + i/8` (or panics when out
of range) and sets bit `i` of that filter's bitset. -/
def Deserialize (data : List Nat) : Option BloomFilter :=
  if data.length < 16 then none
  else
    (New (readUint64LE data 0) 1).bind fun bf =>
      ((List.range bf.size).foldl (deserStep data) (some bf.bitset)).map fun bits =>
        { bf with bitset := bits, count := readUint64LE data 8 }

end bloomfilter

namespace bloomfilter

/-! Generic list helpers used by the loop proofs. -/

lemma getD_set_self {α : Type} (l : List α) (i : Nat) (a d : α) (h : i < l.length) :
    (l.set i a).getD i d = a := by
  rw [List.getD_eq_getElem _ _ (by simpa using h)]
  simp [List.getElem_set_self]

lemma getD_set_ne {α : Type} (l : List α) (i j : Nat) (a d : α) (h : i ≠ j) :
    (l.set i a).getD j d = l.getD j d := by
  simp [List.getD_eq_getD_get?, List.get?_eq_getElem?, List.getElem?_set_ne h]

lemma set_true_getD_mono (l : List Bool) (i j : Nat) (h : l.getD j false = true) :
    (l.set i true).getD j false = true := by
  rcases eq_or_ne i j with rfl | hne
  · rcases Nat.lt_or_ge i l.length with hl | hl
    · rw [getD_set_self l i true false hl]
    · rw [List.set_eq_of_length_le hl]; exact h
  · rw [getD_set_ne l i j true false hne]; exact h

/-! Facts about the probing loops. -/

lemma containsLoop_eq_getD (bf : BloomFilter) (item : List Nat) :
    ∀ k, 1 ≤ k → containsLoop bf item k = bf.bitset.getD (probeIndex bf item) false := by
  intro k
  induction k with
  | zero => intro h; omega
  | succ n ih =>
    intro _
    simp only [containsLoop]
    cases h : bf.bitset.getD (probeIndex bf item) false
    · simp [h]
    · simp only [h, if_true]
      cases n with
      | zero => rfl
      | succ m => exact (ih (by omega)).trans h

lemma addLoop_length (bf : BloomFilter) (item : List Nat) (k : Nat) :
    (addLoop bf item k).length = bf.bitset.length := by
  induction k with
  | zero => rfl
  | succ n ih => simp only [addLoop, List.length_set]; exact ih

lemma addLoop_getD_mono (bf : BloomFilter) (item : List Nat) (k : Nat) (j : Nat)
    (h : bf.bitset.getD j false = true) : (addLoop bf item k).getD j false = true := by
  induction k with
  | zero => exact h
  | succ n ih => exact set_true_getD_mono _ _ _ ih

lemma addLoop_getD_probe (bf : BloomFilter) (item : List Nat) (k : Nat)
    (hk : 1 ≤ k) (hlt : probeIndex bf item < bf.bitset.length) :
    (addLoop bf item k).getD (probeIndex bf item) false = true := by
  cases k with
  | zero => omega
  | succ n =>
    simp only [addLoop]
    exact getD_set_self _ _ _ _ (by rw [addLoop_length]; exact hlt)

lemma Add_bitset_length (bf : BloomFilter) (item : List Nat) :
    (Add bf item).bitset.length = bf.bitset.length :=
  addLoop_length bf item bf.numHashes

lemma foldl_add_keeps_hit (e : List Nat) :
    ∀ (later : List (List Nat)) (g : BloomFilter),
      g.bitset.length = g.size → 0 < g.size → 1 ≤ g.numHashes →
      g.bitset.getD (fnv64 e % g.size) false = true →
      Contains (later.foldl Add g) e = true := by
  intro later
  induction later with
  | nil =>
    intro g _ _ h3 h4
    simp only [List.foldl_nil]
    rw [Contains, containsLoop_eq_getD _ _ _ h3]
    exact h4
  | cons x xs ih =>
    intro g h1 h2 h3 h4
    simp only [List.foldl_cons]
    apply ih (Add g x)
    · rw [Add_bitset_length]; exact h1
    · exact h2
    · exact h3
    · exact addLoop_getD_mono g x g.numHashes _ h4

/-- C1: for every byte sequence `e` and every filter `f` with positive size,
a bitset of that size and at least one hash probe, after `Add f e` — and any
further `Add` calls, with no intervening `Reset` — `Contains` of `e` returns
true: the filter has no false negatives. -/
theorem add_contains_no_false_negative (f : BloomFilter) (e : List Nat)
    (hlen : f.bitset.length = f.size) (hsize : 0 < f.size) (hk : 1 ≤ f.numHashes)
    (later : List (List Nat)) :
    Contains (later.foldl Add (Add f e)) e = true := by
  apply foldl_add_keeps_hit e later (Add f e)
  · rw [Add_bitset_length]; exact hlen
  · exact hsize
  · exact hk
  · exact addLoop_getD_probe f e f.numHashes hk
      (by rw [hlen]; exact Nat.mod_lt _ hsize)

/-- Witness for C1 at a concrete filter (size 5, two probes), element `[97]`
and one intervening insertion of `[98]`. -/
theorem add_contains_no_false_negative_witness :
    ((newFilter 5 2).bitset.length = (newFilter 5 2).size ∧ 0 < (newFilter 5 2).size ∧
      1 ≤ (newFilter 5 2).numHashes) ∧
    Contains (List.foldl Add (Add (newFilter 5 2) [97]) [[98]]) [97] = true :=
  ⟨by decide,
    add_contains_no_false_negative (newFilter 5 2) [97] (by decide) (by decide) (by decide)
      [[98]]⟩

lemma new_eq_none (size numHashes : Nat) : New size numHashes = none := by
  have hc : ¬((List.range (numHashes + 1)).all (fun i => decide (i < numHashes)) = true) := by
    intro h
    have h2 := List.all_eq_true.mp h numHashes (List.mem_range.mpr (Nat.lt_succ_self numHashes))
    simp at h2
  simp only [New, if_neg hc]

/-- C2: the initialization loop of `New` runs `i` over the closed range
`[0, numHashes]` — one past the last probe slot — so the store
`hashFuncs[numHashes]` is out of bounds and every call to `New` panics
(`none`), for every `size` and every `numHashes`, contrary to the contract
that exactly the indices `[0, numHashes)` are touched. -/
theorem new_always_out_of_bounds (size numHashes : Nat) : New size numHashes = none :=
  new_eq_none size numHashes

/-- C3: `Add` never touches `count`: the reported `Count` after an insertion
equals the `Count` before it, for every filter and every element — the source
omits the increment the spec describes. -/
theorem add_does_not_increment_count (f : BloomFilter) (e : List Nat) :
    Count (Add f e) = Count f := rfl

/-- C9: `New` performs no validation of its arguments: the calls `New 500 0`
and `New 0 3` do fail, but with the same out-of-range panic (not a
construction error) that also kills the spec's valid call `New 1000 3`. -/
theorem new_has_no_argument_validation :
    New 500 0 = none ∧ New 0 3 = none ∧ New 1000 3 = none := by
  exact ⟨by decide, by decide, by decide⟩

/-- C5 counterexample: the union of a size-1000 filter and a size-500 filter
(both with 3 probes) is the silently-null result `none`; no error value
identifying the mismatched field exists anywhere in `Union`. -/
theorem union_mismatch_returns_nil :
    Union (newFilter 1000 3) (newFilter 500 3) = none := by decide

/-- C5 (amended): whenever the operands' `size` or probe count differ,
`Union` fails by returning the null result (`nil`, modelled `none`), with no
error value; it never returns a non-null empty filter on mismatch. -/
theorem union_mismatch_no_error (f1 f2 : BloomFilter)
    (h : f1.size ≠ f2.size ∨ f1.numHashes ≠ f2.numHashes) :
    Union f1 f2 = none := by
  simp only [Union, if_pos h]

/-- Witness for the amended C5 at filters of sizes 3 and 2. -/
theorem union_mismatch_no_error_witness :
    ((newFilter 3 1).size ≠ (newFilter 2 1).size ∨
      (newFilter 3 1).numHashes ≠ (newFilter 2 1).numHashes) ∧
    Union (newFilter 3 1) (newFilter 2 1) = none :=
  ⟨Or.inl (by decide), union_mismatch_no_error _ _ (Or.inl (by decide))⟩

/-- C6: the claim's success path is dead code: for every pair of operands
with equal `size` and equal probe count, `Union` panics (`none`) inside the
`New(bf.size, len(bf.hashFuncs))` call it makes to build the result, before
any bit is OR-ed or any count summed — the program never returns the OR/sum
filter the claim describes. -/
theorem union_compatible_panics (f1 f2 : BloomFilter)
    (hs : f1.size = f2.size) (hk : f1.numHashes = f2.numHashes) :
    Union f1 f2 = none := by
  have hcond : ¬(f1.size ≠ f2.size ∨ f1.numHashes ≠ f2.numHashes) := by
    push_neg
    exact ⟨hs, hk⟩
  simp only [Union, if_neg hcond]
  rw [new_eq_none]
  rfl

/-- Witness for C6's theorem at two identical compatible (1000, 3) filters. -/
theorem union_compatible_panics_witness :
    ((newFilter 1000 3).size = (newFilter 1000 3).size ∧
      (newFilter 1000 3).numHashes = (newFilter 1000 3).numHashes) ∧
    Union (newFilter 1000 3) (newFilter 1000 3) = none :=
  ⟨⟨rfl, rfl⟩, union_compatible_panics _ _ rfl rfl⟩

/-! Facts about the byte buffer built by `Serialize`. -/

lemma putUint64LE_length (x : Nat) : (putUint64LE x).length = 8 := rfl

lemma getD_replicate_zero (n j : Nat) : (List.replicate n (0:Nat)).getD j 0 = 0 := by
  rcases Nat.lt_or_ge j n with h | h
  · rw [List.getD_eq_getElem _ _ (by simpa using h)]
    simp
  · exact List.getD_eq_default _ _ (by simpa using h)

lemma serBase_getD_lt8 (x y : Nat) (rest : List Nat) (k : Nat) (hk : k < 8) :
    (putUint64LE x ++ putUint64LE y ++ rest).getD k 0 = (putUint64LE x).getD k 0 := by
  rw [List.append_assoc]
  exact List.getD_append _ _ _ _ (by rw [putUint64LE_length]; omega)

lemma serBase_getD_mid (x y : Nat) (rest : List Nat) (k : Nat) (hk : k < 8) :
    (putUint64LE x ++ putUint64LE y ++ rest).getD (8 + k) 0 = (putUint64LE y).getD k 0 := by
  rw [List.append_assoc]
  rw [List.getD_append_right _ _ _ _ (by rw [putUint64LE_length]; omega)]
  rw [show 8 + k - (putUint64LE x).length = k from by rw [putUint64LE_length]; omega]
  exact List.getD_append _ _ _ _ (by rw [putUint64LE_length]; omega)

lemma serBase_getD_high (x y : Nat) (m j : Nat) :
    (putUint64LE x ++ putUint64LE y ++ List.replicate m 0).getD (16 + j) 0 = 0 := by
  rw [List.append_assoc]
  rw [List.getD_append_right _ _ _ _ (by simp only [putUint64LE_length]; omega)]
  rw [List.getD_append_right _ _ _ _ (by simp only [putUint64LE_length]; omega)]
  exact getD_replicate_zero _ _

lemma serFold_length (bf : BloomFilter) :
    ∀ (l : List Nat) (acc : List Nat),
      (l.foldl (fun acc i =>
        if bf.bitset.getD i false then
          acc.set (16 + i / 8) (acc.getD (16 + i / 8) 0 ||| 1 <<< (i % 8))
        else acc) acc).length = acc.length := by
  intro l
  induction l with
  | nil => intro acc; rfl
  | cons x xs ih =>
    intro acc
    simp only [List.foldl_cons]
    rw [ih]
    by_cases hx : bf.bitset.getD x false = true
    · rw [if_pos hx, List.length_set]
    · rw [if_neg hx]

lemma serFold_getD_lt16 (bf : BloomFilter) :
    ∀ (l : List Nat) (acc : List Nat) (k : Nat), k < 16 →
      (l.foldl (fun acc i =>
        if bf.bitset.getD i false then
          acc.set (16 + i / 8) (acc.getD (16 + i / 8) 0 ||| 1 <<< (i % 8))
        else acc) acc).getD k 0 = acc.getD k 0 := by
  intro l
  induction l with
  | nil => intro acc k hk; rfl
  | cons x xs ih =>
    intro acc k hk
    simp only [List.foldl_cons]
    rw [ih _ _ hk]
    by_cases hx : bf.bitset.getD x false = true
    · rw [if_pos hx]
      exact getD_set_ne acc (16 + x / 8) k
        (acc.getD (16 + x / 8) 0 ||| 1 <<< (x % 8)) 0 (by omega)
    · rw [if_neg hx]

lemma serFold_testBit (bf : BloomFilter) (base : List Nat)
    (hbase : ∀ j, base.getD (16 + j) 0 = 0)
    (hblen : ∀ i, i < bf.bitset.length → 16 + i / 8 < base.length) :
    ∀ n, n ≤ bf.bitset.length → ∀ j b, b < 8 →
      Nat.testBit (((List.range n).foldl (fun acc i =>
        if bf.bitset.getD i false then
          acc.set (16 + i / 8) (acc.getD (16 + i / 8) 0 ||| 1 <<< (i % 8))
        else acc) base).getD (16 + j) 0) b =
      (decide (8 * j + b < n) && bf.bitset.getD (8 * j + b) false) := by
  intro n
  induction n with
  | zero =>
    intro _ j b hb
    show Nat.testBit (base.getD (16 + j) 0) b = _
    rw [hbase j]
    simp
  | succ m ih =>
    intro hm j b hb
    rw [List.range_succ, List.foldl_append]
    simp only [List.foldl_cons, List.foldl_nil]
    have hfl : ((List.range m).foldl (fun acc i =>
        if bf.bitset.getD i false then
          acc.set (16 + i / 8) (acc.getD (16 + i / 8) 0 ||| 1 <<< (i % 8))
        else acc) base).length = base.length := serFold_length bf _ _
    by_cases hmb : bf.bitset.getD m false = true
    · rw [if_pos hmb]
      by_cases hj8 : j = m / 8
      · subst hj8
        rw [getD_set_self _ _ _ _ (by rw [hfl]; exact hblen m (by omega))]
        rw [Nat.testBit_lor]
        rw [Nat.shiftLeft_eq, one_mul]
        by_cases hbm : b = m % 8
        · subst hbm
          rw [Nat.testBit_two_pow_self]
          rw [show 8 * (m / 8) + m % 8 = m from by omega, hmb]
          simp
        · rw [Nat.testBit_two_pow_of_ne (fun hc => hbm hc.symm)]
          rw [ih (by omega) (m / 8) b hb]
          have hjbm : 8 * (m / 8) + b ≠ m := by omega
          have hd : decide (8 * (m / 8) + b < m) = decide (8 * (m / 8) + b < m + 1) := by
            simp only [decide_eq_decide]
            omega
          rw [hd]
          simp
      · rw [getD_set_ne _ _ _ _ _ (by intro hc; exact hj8 (by omega))]
        rw [ih (by omega) j b hb]
        have hjbm : 8 * j + b ≠ m := by omega
        have hd : decide (8 * j + b < m) = decide (8 * j + b < m + 1) := by
          simp only [decide_eq_decide]
          omega
        rw [hd]
    · rw [if_neg hmb]
      rw [Bool.not_eq_true] at hmb
      rw [ih (by omega) j b hb]
      by_cases hjb : 8 * j + b = m
      · rw [hjb, hmb]
        simp
      · have hd : decide (8 * j + b < m) = decide (8 * j + b < m + 1) := by
          simp only [decide_eq_decide]
          omega
        rw [hd]

lemma serialize_length_raw (bf : BloomFilter) :
    (Serialize bf).length = 8 + 8 + (bf.size / 8 + 1) := by
  simp only [Serialize]
  rw [serFold_length]
  simp only [List.length_append, putUint64LE_length, List.length_replicate]

lemma serialize_getD_low (bf : BloomFilter) (k : Nat) (hk : k < 16) :
    (Serialize bf).getD k 0 =
      (putUint64LE bf.size ++ putUint64LE bf.count ++
        List.replicate (bf.size / 8 + 1) 0).getD k 0 := by
  simp only [Serialize]
  exact serFold_getD_lt16 bf _ _ k hk

lemma serialize_testBit (bf : BloomFilter) (hlen : bf.bitset.length = bf.size) (i : Nat)
    (hi : i < bf.size) :
    Nat.testBit ((Serialize bf).getD (16 + i / 8) 0) (i % 8) = bf.bitset.getD i false := by
  have hblen : ∀ i2, i2 < bf.bitset.length → 16 + i2 / 8 <
      (putUint64LE bf.size ++ putUint64LE bf.count ++
        List.replicate (bf.size / 8 + 1) 0).length := by
    intro i2 hi2
    simp only [List.length_append, putUint64LE_length, List.length_replicate]
    have : i2 / 8 ≤ bf.size / 8 := Nat.div_le_div_right (by omega)
    omega
  have hmain := serFold_testBit bf _ (fun j => serBase_getD_high _ _ _ j) hblen
    bf.bitset.length le_rfl (i / 8) (i % 8) (Nat.mod_lt _ (by omega))
  rw [show 8 * (i / 8) + i % 8 = i from by omega] at hmain
  simp only [Serialize]
  rw [hmain]
  simp [show i < bf.bitset.length from by omega]

lemma putUint64LE_getD (x : Nat) :
    ∀ k, k < 8 → (putUint64LE x).getD k 0 = x / 2^(8*k) % 256 := by
  intro k hk
  interval_cases k
  · show x % 256 = x / 2^(8*0) % 256
    rw [show (2:Nat)^(8*0) = 1 from rfl, Nat.div_one]
  · rfl
  · rfl
  · rfl
  · rfl
  · rfl
  · rfl
  · rfl

/-- C8 counterexample: for a filter of size 8 the buffer is
`8 + 8 + 8/8 + 1 = 18` bytes, not the claimed `16 + ceil(8/8) = 17`: the
source allocates `size/8 + 1` bitmap bytes, one more than `ceil(size/8)`
whenever 8 divides `size`. -/
theorem serialize_length_not_ceil :
    ¬((Serialize ⟨List.replicate 8 false, 8, 1, 0⟩).length = 16 + (8 + 7) / 8) := by decide

/-- C8 (amended): `Serialize` returns exactly `16 + size/8 + 1` bytes (equal
to `16 + ceil(size/8)` except when 8 divides `size`, where one extra trailing
zero byte is emitted); `size` is little-endian at offset 0, `count`
little-endian at offset 8, and bit `i` of the bitset is packed at byte
`16 + i/8`, bit position `i % 8`, LSB first. -/
theorem serialize_layout (f : BloomFilter) (hlen : f.bitset.length = f.size) :
    (Serialize f).length = 16 + f.size / 8 + 1 ∧
    (∀ k, k < 8 → (Serialize f).getD k 0 = f.size / 2^(8*k) % 256) ∧
    (∀ k, k < 8 → (Serialize f).getD (8 + k) 0 = f.count / 2^(8*k) % 256) ∧
    (∀ i, i < f.size → Nat.testBit ((Serialize f).getD (16 + i / 8) 0) (i % 8) =
      f.bitset.getD i false) := by
  refine ⟨?_, ?_, ?_, ?_⟩
  · rw [serialize_length_raw]
    omega
  · intro k hk
    rw [serialize_getD_low f k (by omega), serBase_getD_lt8 _ _ _ k hk]
    exact putUint64LE_getD _ k hk
  · intro k hk
    rw [serialize_getD_low f (8 + k) (by omega), serBase_getD_mid _ _ _ k hk]
    exact putUint64LE_getD _ k hk
  · exact fun i hi => serialize_testBit f hlen i hi

/-- Witness for the amended C8 at a size-3 filter with bits 101 and count 5. -/
theorem serialize_layout_witness :
    ((⟨[true, false, true], 3, 1, 5⟩ : BloomFilter).bitset.length =
      (⟨[true, false, true], 3, 1, 5⟩ : BloomFilter).size) ∧
    ((Serialize ⟨[true, false, true], 3, 1, 5⟩).length = 16 + 3 / 8 + 1 ∧
      (∀ k, k < 8 → (Serialize ⟨[true, false, true], 3, 1, 5⟩).getD k 0 = 3 / 2^(8*k) % 256) ∧
      (∀ k, k < 8 →
        (Serialize ⟨[true, false, true], 3, 1, 5⟩).getD (8 + k) 0 = 5 / 2^(8*k) % 256) ∧
      (∀ i, i < 3 →
        Nat.testBit ((Serialize ⟨[true, false, true], 3, 1, 5⟩).getD (16 + i / 8) 0) (i % 8) =
          ([true, false, true] : List Bool).getD i false)) :=
  ⟨rfl, serialize_layout _ rfl⟩

lemma deserialize_eq_none (data : List Nat) : Deserialize data = none := by
  by_cases hlen : data.length < 16
  · simp only [Deserialize, if_pos hlen]
  · simp only [Deserialize, if_neg hlen]
    rw [new_eq_none]
    rfl

/-- C7: `Deserialize` has no malformed-input error value and never returns at
all: on fewer than 16 bytes it panics reading the header slices `data[0:8]` /
`data[8:16]` — an out-of-bounds read, exactly what the claim says must not
happen — and on every input of at least 16 bytes, malformed or well-formed,
declared size zero included, it panics inside the `New(uint(size), 1)` call
before reaching the bit loop. -/
theorem deserialize_never_returns (data : List Nat) : Deserialize data = none :=
  deserialize_eq_none data

/-- C10: no byte sequence is ever accepted by `Deserialize` — the
`New(uint(size), 1)` call through which the source requests its single hash
probe panics on every input — evaluated here at a well-formed 17-byte input
declaring size 1 and count 5, so the claim's premise "accepted by
deserialize" holds of no input of the program. -/
theorem deserialize_accepts_no_input :
    Deserialize [1, 0, 0, 0, 0, 0, 0, 0, 5, 0, 0, 0, 0, 0, 0, 0, 255] = none := by decide

/-- C4: the round trip never completes: deserializing the serialization of
any filter panics (`none`) inside the `New(uint(size), 1)` call of
`Deserialize`, so no filter with matching `size`, `Count` or `Contains`
behaviour is ever produced. -/
theorem deserialize_serialize_panics (f : BloomFilter) :
    Deserialize (Serialize f) = none :=
  deserialize_eq_none (Serialize f)

end bloomfilter
